import Mathlib

/-!
# Verification development for the beta-shrinkage repository

This file is a shallow embedding of `src/beta.py` (classes `Beta`,
`BetaForecastCombination`, `BetaBMA`) over exact real arithmetic, together
with theorems settling the frozen claims about the program.

Modelling conventions:

* numpy 1-D arrays and column vectors are `List ℝ`; 2-D matrices are
  `List (List ℝ)` (row lists).  A list encoding loses the column count of an
  empty numpy matrix, so functions that need the column dimension of a
  possibly-empty matrix take it as an explicit `ncols` argument (it is always
  determined by the numpy array shape in the source).
* `np.linalg.inv` raises `LinAlgError` exactly on singular input; this is
  modelled by `invL` returning `none` iff the determinant is zero.
* `np.linalg.pinv` is an external primitive (spec §6).  `pinvSolve` models
  `pinv(X) @ y`: on full-column-rank `X` it is the least-squares solution
  `(XᵀX)⁻¹Xᵀy`; on rank-deficient `X` it degrades to the zero vector (numpy
  returns the minimum-norm solution there).  No claim in this development
  depends on the value produced in either branch.
* Python exceptions are modelled by `Option`: a raised exception is `none`.
  Division by zero does not raise in numpy float code (it yields `inf`/`nan`
  with a warning), so real division (with `x / 0 = 0`) is used for it; no
  claim is settled inside such a degenerate regime.
* mutable attributes are threaded explicitly: methods that can write to the
  instance return the new instance together with the result.
-/

noncomputable section

open List

/-! ## List linear algebra -/

/-- Dot product of two equally long lists (zip truncation mirrors shapes that
always agree in the source). -/
def dotL (a b : List ℝ) : ℝ := (List.zipWith (· * ·) a b).sum

/-- Matrix–vector product: `A @ v` for a row-list matrix. -/
def matVecL (A : List (List ℝ)) (v : List ℝ) : List ℝ := A.map (fun r => dotL r v)

/-- Transpose of a row-list matrix whose column count `nc` is supplied
explicitly (the numpy shape carries it even for zero-row matrices). -/
def transposeFixed (nc : ℕ) (X : List (List ℝ)) : List (List ℝ) :=
  (List.range nc).map (fun j => X.map (fun r => r.getD j 0))

/-- Multiply each row `i` of `X` by the scalar `w i`: the product `W @ X` with
`W = np.diag(w)`. -/
def scaleRows (w : List ℝ) (X : List (List ℝ)) : List (List ℝ) :=
  List.zipWith (fun wi r => r.map (fun a => wi * a)) w X

/-- Matrix product `A @ B` where `B` has `ncB` columns. -/
def matMulL (A B : List (List ℝ)) (ncB : ℕ) : List (List ℝ) :=
  A.map (fun r => (transposeFixed ncB B).map (fun c => dotL r c))

/-- Minor of a matrix: remove row `i` and column `j`. -/
def minorL (A : List (List ℝ)) (i j : ℕ) : List (List ℝ) :=
  (A.eraseIdx i).map (fun r => r.eraseIdx j)

/-- Determinant by Laplace expansion along the first row. -/
def detL : List (List ℝ) → ℝ
  | [] => 1
  | r :: rest =>
    ((List.range r.length).map
      (fun j => (-1 : ℝ)^j * r.getD j 0 * detL (rest.map (fun rr => rr.eraseIdx j)))).sum
termination_by A => A.length
decreasing_by simp_all [List.length_map]

/-- Matrix inverse via cofactors.  `none` exactly when the determinant is
zero, mirroring `np.linalg.inv` raising `LinAlgError` on singular input. -/
def invL (A : List (List ℝ)) : Option (List (List ℝ)) :=
  if detL A = 0 then none
  else some ((List.range A.length).map (fun i =>
    (List.range A.length).map (fun j =>
      (-1 : ℝ)^(i+j) * detL (minorL A j i) / detL A)))

/-- Least-squares solve `pinv(X) @ y` for `X` with `nc` columns (see the
header comment: external primitive, value never load-bearing). -/
def pinvSolve (nc : ℕ) (X : List (List ℝ)) (y : List ℝ) : List ℝ :=
  let Xt := transposeFixed nc X
  let A := matMulL Xt X nc
  match invL A with
  | none => List.replicate nc 0
  | some Ai => matVecL Ai (matVecL Xt y)

/-- Mean of a list, `np.mean`. -/
def listMean (l : List ℝ) : ℝ := l.sum / l.length

/-- Sum of squared differences, `np.sum(np.square(a - b))`. -/
def sumSq (a b : List ℝ) : ℝ := (List.zipWith (fun x y => (x - y)^2) a b).sum

/-- Population standard deviation, `np.std`. -/
def npStd (l : List ℝ) : ℝ :=
  Real.sqrt ((l.map (fun x => (x - listMean l)^2)).sum / l.length)

/-- Pearson correlation `np.corrcoef(a, b)[0, 1]` (the `1/n` factors of the
covariance and the standard deviations cancel). -/
def pearson (a b : List ℝ) : ℝ :=
  let am := listMean a
  let bm := listMean b
  (List.zipWith (fun x y => (x - am) * (y - bm)) a b).sum /
    (Real.sqrt ((a.map (fun x => (x - am)^2)).sum) *
     Real.sqrt ((b.map (fun x => (x - bm)^2)).sum))

/-- Subtract the column means from each row of `X`
(`X -= np.mean(X, axis=0)`), the in-place `demean` branch of
`_weighted_ols`. -/
def demeanCols (nc : ℕ) (X : List (List ℝ)) : List (List ℝ) :=
  let colMeans := (transposeFixed nc X).map listMean
  X.map (fun r => List.zipWith (fun a m => a - m) r colMeans)

/-- Prepend an intercept column of ones to a matrix: `add_intercept`
(`src/beta.py` line 24). -/
def add_intercept (data : List (List ℝ)) : List (List ℝ) := data.map (fun r => 1 :: r)

/-! ## The `Beta` class (src/beta.py lines 29-150) -/

/-- Instance state of the `Beta` class: `exog`, `endog` (column lists),
`n_obs = exog.shape[0]` and the design matrix `exog_mat = [1 | exog]`. -/
structure BetaState where
  exog : List ℝ
  endog : List ℝ
  n_obs : ℕ
  exog_mat : List (List ℝ)

namespace Beta

/-- `Beta.__init__` (lines 30-34). -/
def init (exog endog : List ℝ) : BetaState :=
  { exog := exog
    endog := endog
    n_obs := exog.length
    exog_mat := exog.map (fun x => [1, x]) }

/-- `Beta._weighted_ols` (lines 36-56), with the column count `nc` of `X`
made explicit.  Returns the (possibly demeaned, i.e. mutated in place) `X`
together with the coefficient vector `(XᵀWX)⁻¹XᵀWy`, or `none` when the
normal matrix is singular (`np.linalg.inv` raises). -/
def weighted_ols (nc : ℕ) (X : List (List ℝ)) (y : List ℝ)
    (w : Option (List ℝ)) (demean : Bool) : List (List ℝ) × Option (List ℝ) :=
  let X' := if demean then demeanCols nc X else X
  let wv := w.getD (List.replicate X'.length 1)
  let Xt := transposeFixed nc X'
  let A := matMulL Xt (scaleRows wv X') nc
  let bvec := matVecL Xt (List.zipWith (· * ·) wv y)
  (X', (invL A).map (fun Ai => matVecL Ai bvec))

/-- `Beta.ols` (lines 58-73): slope of unweighted OLS (`np.ravel(...)[-1]`),
optionally Blume-adjusted `0.67*beta + 0.33`. -/
def ols (b : BetaState) (adjusted : Bool) : BetaState × Option ℝ :=
  let r := weighted_ols 2 b.exog_mat b.endog none false
  ({ b with exog_mat := r.1 },
    r.2.map (fun c =>
      let beta := c.getLastD 0
      if adjusted then 0.67 * beta + 0.33 else beta))

/-- `Beta.vasicek` (lines 75-94): Bayesian shrinkage of the OLS slope towards
`beta_prior` with prior standard error `se_prior`. -/
def vasicek (b : BetaState) (beta_prior se_prior : ℝ) : BetaState × Option ℝ :=
  let r := weighted_ols 2 b.exog_mat b.endog none false
  ({ b with exog_mat := r.1 },
    r.2.map (fun beta =>
      let endog_hat := matVecL r.1 beta
      let s_yy := sumSq b.endog endog_hat / ((b.n_obs : ℝ) - 2)
      let xbar := listMean b.exog
      let s_xx := (b.exog.map (fun x => (x - xbar)^2)).sum
      let std_error := Real.sqrt (s_yy / s_xx)
      let num := beta_prior / se_prior^2 + beta.getD 1 0 / std_error^2
      let den := 1 / se_prior^2 + 1 / std_error^2
      num / den))

/-- `Beta.welch` (lines 96-115): winsorize `endog` into
`[min((1-delta)x, (1+delta)x), max((1-delta)x, (1+delta)x)]`, then WLS with
exponential recency weights `exp(-rho * arange(n))[::-1]`; the slope is
`np.ravel(beta)[1]`. -/
def welch (b : BetaState) (delta rho : ℝ) : BetaState × Option ℝ :=
  let bm_min := b.exog.map (fun x => (1 - delta) * x)
  let bm_max := b.exog.map (fun x => (1 + delta) * x)
  let lower := List.zipWith min bm_min bm_max
  let upper := List.zipWith max bm_min bm_max
  let endog_wins :=
    List.zipWith (fun y (lu : ℝ × ℝ) => max lu.1 (min y lu.2)) b.endog (lower.zip upper)
  let weights := ((List.range b.n_obs).map (fun t : ℕ => Real.exp (-rho * (t : ℝ)))).reverse
  let r := weighted_ols 2 b.exog_mat endog_wins (some weights) false
  ({ b with exog_mat := r.1 }, r.2.map (fun c => c.getD 1 0))

/-- `Beta.robeco` (lines 117-140): product of the shrunk correlation and the
shrunk volatility ratio; involves no matrix inverse, so it never raises. -/
def robeco (b : BetaState) (corr_target vol_target gamma phi : ℝ) : BetaState × Option ℝ :=
  let corr := pearson b.exog b.endog
  let corr_shrink := (1 - gamma) * corr + gamma * corr_target
  let vol_ratio := npStd b.endog / npStd b.exog
  let vol_shrink := (1 - phi) * vol_ratio + phi * vol_target
  (b, some (corr_shrink * vol_shrink))

/-- `Beta.scholes_williams` (lines 142-150): lead, lag and contemporaneous
OLS slopes divided by `1 + 2 * autocorr`.  All three `_weighted_ols` calls
pass `demean = False` on slices of `exog_mat`, so no instance state is
written. -/
def scholes_williams (b : BetaState) : BetaState × Option ℝ :=
  let r1 := (weighted_ols 2 (b.exog_mat.drop 1) b.endog.dropLast none false).2
  let r2 := (weighted_ols 2 b.exog_mat.dropLast (b.endog.drop 1) none false).2
  let r3 := (weighted_ols 2 b.exog_mat b.endog none false).2
  (b, do
    let beta_lead ← r1.map (fun c => c.getLastD 0)
    let beta_lag ← r2.map (fun c => c.getLastD 0)
    let beta ← r3.map (fun c => c.getLastD 0)
    let auto_corr := pearson (b.exog.drop 1) b.exog.dropLast
    pure ((beta_lag + beta + beta_lead) / (1 + 2 * auto_corr)))

end Beta

/-! ## Windowing and the `BetaForecastCombination` class (lines 153-198) -/

/-- `np.hstack` of two column vectors into a two-column matrix, encoded as a
list of pairs.  `np.hstack` raises `ValueError` when the lengths differ. -/
def hstack2 (a b : List ℝ) : Option (List (ℝ × ℝ)) :=
  if a.length = b.length then some (a.zip b) else none

/-- Python slice `l[:-d]` for `d ≥ 0` (note `l[:-0] = l[:0] = []`). -/
def pySliceNeg (l : List α) (d : ℕ) : List α :=
  if d = 0 then [] else l.take (l.length - d)

/-- `BetaForecastCombination._generate_estimation_windows` (lines 161-162):
expanding windows `data[: window + i]` for `i in range(len(data) - window)`. -/
def generate_estimation_windows (window : ℕ) (data : List α) : List (List α) :=
  (List.range (data.length - window)).map (fun i => data.take (window + i))

/-- One row of the estimator matrix built by
`BetaForecastCombination._generate_betas` (lines 164-178): the six estimates
`(ols, adjusted ols, vasicek, welch, aged welch, robeco)` for one window.
`kwargs` are never passed at any call site, so `corr_target = 0.5` and
`vol_target = 2`; the remaining defaults come from the method signatures.
Any estimator raising maps the whole computation to `none`. -/
def betaRow (win : List (ℝ × ℝ)) : Option (List ℝ) :=
  let b := Beta.init (win.map Prod.fst) (win.map Prod.snd)
  do
    let o ← (Beta.ols b false).2
    let oa ← (Beta.ols b true).2
    let v ← (Beta.vasicek b 1 (1/2)).2
    let w1 ← (Beta.welch b 3 0).2
    let w2 ← (Beta.welch b 3 (2/256)).2
    let rb ← (Beta.robeco b (1/2) 2 (1/2) (2/10)).2
    pure [o, oa, v, w1, w2, rb]

/-- `_generate_betas` over a list of windows.  The source computes one
column per estimator and `np.hstack`s them; building the matrix row by row
is the same matrix, and an exception anywhere is `none` either way. -/
def generate_betas : List (List (ℝ × ℝ)) → Option (List (List ℝ))
  | [] => some []
  | w :: ws => do
    let r ← betaRow w
    let rest ← generate_betas ws
    pure (r :: rest)

/-- Instance state of `BetaForecastCombination` (lines 154-159):
`n_obs = endog.shape[0]`, `weights = None` until a fit commits them. -/
structure FCState where
  exog : List ℝ
  endog : List ℝ
  window : ℕ
  n_obs : ℕ
  weights : Option (List ℝ)

namespace BetaForecastCombination

/-- `BetaForecastCombination.__init__` (lines 154-159).  No validation of any
kind is performed: every argument is stored as given. -/
def init (exog endog : List ℝ) (window : ℕ) : FCState :=
  { exog := exog, endog := endog, window := window, n_obs := endog.length, weights := none }

/-- Lines 182-184 of `fit`: split into training prefix and test suffix; each
`np.hstack` raises when the sliced series have different lengths. -/
def pre (s : FCState) : Option (List (ℝ × ℝ) × List (ℝ × ℝ)) := do
  let cutoff := s.n_obs - s.window
  let train ← hstack2 (s.exog.take cutoff) (s.endog.take cutoff)
  let test ← hstack2 (s.exog.drop cutoff) (s.endog.drop cutoff)
  pure (train, test)

/-- Lines 187-191 of `fit`: expanding windows over the training data, the
training estimator matrix, and the (dead, but failure-capable) allocation
`one = np.ones([len(train) - window - 1, 1])`, which raises `ValueError`
when its first dimension is negative. -/
def trainStage (s : FCState) (train : List (ℝ × ℝ)) : Option (List (List ℝ)) := do
  let tws := generate_estimation_windows s.window train
  let betas ← generate_betas tws
  if (train.length : ℤ) - (s.window : ℤ) - 1 < 0 then none else pure betas

/-- Lines 192-193 of `fit`: regress next-period realised OLS betas
`betas[1:, 0]` on `[1, betas[:-1, :]]` via the pseudo-inverse. -/
def weightVec (betas : List (List ℝ)) : List ℝ :=
  pinvSolve 7 (add_intercept (pySliceNeg betas 1)) ((betas.drop 1).map (fun r => r.getD 0 0))

/-- `BetaForecastCombination.fit` (lines 180-198) with the instance state
threaded explicitly: the pair is (state after the call, result), where a
`none` result is a raised exception and the state component is the instance
state at the moment the exception propagates.  `self.weights` is assigned at
line 193, before the test-window estimators of line 196 run. -/
def fit (s : FCState) : FCState × Option ℝ :=
  match pre s with
  | none => (s, none)
  | some (train, test) =>
    match trainStage s train with
    | none => (s, none)
    | some betas =>
      let wv := weightVec betas
      let s' := { s with weights := some wv }
      match generate_betas [test] with
      | none => (s', none)
      | some betas_test =>
        let X_test := add_intercept betas_test
        (s', some ((matVecL X_test wv).getD 0 0))

end BetaForecastCombination

/-! ## The `BetaBMA` class (lines 201-256) -/

/-- Instance state of `BetaBMA`: the superclass state plus the stored
`shrinkage` argument. -/
structure BMAState extends FCState where
  shrinkage : Option ℝ

/-- Subsets of `range l` of each size `k`, in the emission order of
`itertools.combinations` (lexicographic over the input order). -/
def combinationsL : List ℕ → ℕ → List (List ℕ)
  | _, 0 => [[]]
  | [], _ + 1 => []
  | x :: xs, k + 1 =>
    (combinationsL xs k).map (fun c => x :: c) ++ combinationsL xs (k + 1)

/-- `BetaBMA._generate_beta_combinations` (lines 206-209):
`chain(*[combinations(range(len(data)), i) for i in range(1, len(data))])`.
Only the length of `data` matters; it is `beta_w[0]`, a length-6 row. -/
def generate_beta_combinations (data : List α) : List (List ℕ) :=
  ((List.range' 1 (data.length - 1)).map
    (fun i => combinationsL (List.range data.length) i)).flatten

namespace BetaBMA

/-- `BetaBMA.__init__` (lines 202-204).  The `window` argument is accepted
but not forwarded: the source calls `super().__init__(exog, endog)`, so the
superclass default `window = 21` is stored whatever `window` was passed. -/
def init (exog endog : List ℝ) (window : ℕ) (shrinkage : Option ℝ) : BMAState :=
  { BetaForecastCombination.init exog endog 21 with shrinkage := shrinkage }

/-- Lines 241-243 of `fit`: scatter the fitted subset coefficients into a
full-length weight vector, `weights[0] = b_u_hat[0]`,
`weights[combo + 1] = b_u_hat[1:]`, zeros elsewhere. -/
def scatterWeights (n : ℕ) (combo : List ℕ) (bu : List ℝ) : List ℝ :=
  (List.range n).map (fun j =>
    if j = 0 then bu.getD 0 0
    else if (j - 1) ∈ combo then bu.getD (combo.indexOf (j - 1) + 1) 0 else 0)

/-- Lines 233-245 of `fit`: one subset model — the lag-1 regression of the
realised OLS column on the subset's columns, its residual sum of squares,
and the subset forecast `beta_s @ weights`.  Returns
`(len(combo), beta_k, ssr_u)`. -/
def bmaModel (bw bs : List (List ℝ)) (ncols : ℕ) (combo : List ℕ) : ℕ × ℝ × ℝ :=
  let beta_u := add_intercept ((pySliceNeg bw 1).map (fun r => combo.map (fun j => r.getD j 0)))
  let y_u := (bw.drop 1).map (fun r => r.getD 0 0)
  let b_u_hat := pinvSolve (combo.length + 1) beta_u y_u
  let y_u_hat := matVecL beta_u b_u_hat
  let ssr_u := sumSq y_u y_u_hat
  let wts := scatterWeights (ncols + 1) combo b_u_hat
  let beta_k := (matVecL bs wts).getD 0 0
  (combo.length, beta_k, ssr_u)

/-- All intermediate quantities of a completed `BetaBMA.fit` call. -/
structure BMAParts where
  numTW : ℕ
  bw : List (List ℝ)
  bs : List (List ℝ)
  combos : List (List ℕ)
  g : ℝ
  aG : ℝ
  ssr_r : ℝ
  models : List (ℕ × ℝ × ℝ)
  w_k : List ℝ
  w_final : List ℝ
  beta_bma : ℝ

/-- Lines 219-254 of `BetaBMA.fit`: everything after the last failure point,
as a total function of the estimator matrix rows `bw0 :: bwRest`, the
whole-series feature row `bs`, and the number of training windows. -/
def fitCore (numTW : ℕ) (bw0 : List ℝ) (bwRest : List (List ℝ)) (bs : List (List ℝ))
    (dof_r : ℕ) : BMAParts :=
  let bwAll := bw0 :: bwRest
  let combos := generate_beta_combinations bw0
  let g : ℝ := 1 / ((min numTW combos.length : ℕ) : ℝ)
  let aG := g / (1 + g)
  let beta_r := add_intercept ((pySliceNeg bwAll dof_r).map (fun r => [r.getD 0 0]))
  let b_r_hat := pinvSolve 2 beta_r ((bwAll.drop dof_r).map (fun r => r.getD 0 0))
  let y_r_hat := matVecL beta_r b_r_hat
  let ssr_r := sumSq ((bwAll.drop dof_r).map (fun r => r.getD 0 0)) y_r_hat
  let models := combos.map (fun combo => bmaModel bwAll bs bw0.length combo)
  let w_k := models.map (fun m =>
    Real.rpow aG (0.5 * (m.1 : ℝ)) *
      Real.rpow (1 + 1 / g * m.2.2 / ssr_r) (-(0.5 * (dof_r : ℝ))))
  let w_final := w_k.map (fun w => w / w_k.sum)
  let beta_bma := (List.zipWith (fun (m : ℕ × ℝ × ℝ) w => m.2.1 * w) models w_final).sum
  { numTW := numTW, bw := bwAll, bs := bs, combos := combos, g := g, aG := aG,
    ssr_r := ssr_r, models := models, w_k := w_k, w_final := w_final,
    beta_bma := beta_bma }

/-- `BetaBMA.fit` (lines 211-256), producing every intermediate value.
Failure points in source order: the `np.hstack` of the full series (213),
the estimator matrix over expanding windows (215), the whole-series
estimator row (216), and the `beta_w[0]` lookup (219), which raises
`IndexError` when no window exists.  Everything after that is raw
arithmetic (`fitCore`) and cannot raise. -/
def fitParts (s : BMAState) (dof_r : ℕ) : Option BMAParts := do
  let data ← hstack2 s.exog s.endog
  let tws := generate_estimation_windows s.window data
  let bw ← generate_betas tws
  let bsRow ← generate_betas [data]
  let bs := add_intercept bsRow
  match bw with
  | [] => none
  | bw0 :: bwRest => pure (fitCore tws.length bw0 bwRest bs dof_r)

/-- `BetaBMA.fit`'s return value `beta_bma` (line 256). -/
def fit (s : BMAState) (dof_r : ℕ) : Option ℝ :=
  (fitParts s dof_r).map (fun p => p.beta_bma)

end BetaBMA

/-- The model-weight formula exactly as the spec words it (§4.4 step 6):
`w = a_g^(0.5·p) · (1 + SSR_u/(g·SSR_r))^(-0.5·dof_r)`.  Stated separately
from the code's expression (`1 + 1/g * ssr_u/ssr_r`) so the two can be
compared. -/
def specModelWeight (aG g : ℝ) (dof_r p : ℕ) (ssr_u ssr_r : ℝ) : ℝ :=
  Real.rpow aG (0.5 * (p : ℝ)) * Real.rpow (1 + ssr_u / (g * ssr_r)) (-(0.5 * (dof_r : ℝ)))

/-! ## Boolean lexicographic order on index lists (used to state the
enumeration order of claim C4) -/

/-- Strict lexicographic order on lists of naturals. -/
def lexLt : List ℕ → List ℕ → Bool
  | [], [] => false
  | [], _ :: _ => true
  | _ :: _, [] => false
  | a :: as, b :: bs => if a < b then true else if a = b then lexLt as bs else false

/-! ## Weighted normal matrices of the two-column design matrix

`_weighted_ols` fails exactly when `det(XᵀWX) = 0`.  For the design matrix
`[1 | x]` this determinant is the weighted Lagrange quadratic
`(Σw)(Σwx²) - (Σwx)²`, which is positive whenever the weights are positive
and the regressor is not constant.  These lemmas let every estimator-success
obligation be discharged without evaluating the determinant numerically. -/

/-- Weighted count `Σ w` (truncated to the common length with `xs`). -/
def wSum (wv xs : List ℝ) : ℝ := (List.zipWith (fun w _ => w) wv xs).sum

/-- Weighted first moment `Σ w x`. -/
def wxSum (wv xs : List ℝ) : ℝ := (List.zipWith (fun w x => w * x) wv xs).sum

/-- Weighted second moment `Σ w x²`. -/
def wxxSum (wv xs : List ℝ) : ℝ := (List.zipWith (fun w x => w * x * x) wv xs).sum

/-- Determinant of the weighted normal matrix of `[1 | x]`. -/
def detQuad (wv xs : List ℝ) : ℝ :=
  wSum wv xs * wxxSum wv xs - wxSum wv xs * wxSum wv xs

/-- Weighted squared deviations from a point: `Σ w' (x - x')²`. -/
def qSum (x : ℝ) (wv xs : List ℝ) : ℝ :=
  (List.zipWith (fun w' x' => w' * (x - x')^2) wv xs).sum

/-! ## Inversion of `BetaBMA.fitParts` and facts about `fitCore` -/

theorem fitParts_inv (s : BMAState) (dof_r : ℕ) (parts : BetaBMA.BMAParts)
    (h : BetaBMA.fitParts s dof_r = some parts) :
    ∃ data bw0 bwRest bsRow,
      hstack2 s.exog s.endog = some data ∧
      generate_betas (generate_estimation_windows s.window data) = some (bw0 :: bwRest) ∧
      generate_betas [data] = some bsRow ∧
      parts = BetaBMA.fitCore (generate_estimation_windows s.window data).length
        bw0 bwRest (add_intercept bsRow) dof_r := by
  simp only [BetaBMA.fitParts, Option.bind_eq_bind, Option.bind_eq_some] at h
  obtain ⟨data, hdata, h⟩ := h
  obtain ⟨bw, hbw, h⟩ := h
  obtain ⟨bsRow, hbs, h⟩ := h
  cases bw with
  | nil => exact Option.noConfusion h
  | cons bw0 bwRest =>
    simp only [Option.pure_def, Option.some.injEq] at h
    exact ⟨data, bw0, bwRest, bsRow, hdata, hbw, hbs, h.symm⟩

theorem sumSq_nonneg : ∀ (a b : List ℝ), 0 ≤ sumSq a b
  | [], _ => by simp [sumSq]
  | _ :: _, [] => by simp [sumSq]
  | x :: a, y :: b => by
    simp only [sumSq, List.zipWith_cons_cons, List.sum_cons]
    have h1 := sumSq_nonneg a b
    have h2 : (0:ℝ) ≤ (x - y)^2 := sq_nonneg _
    simp only [sumSq] at h1
    linarith

theorem list_sum_map_div (l : List ℝ) (c : ℝ) : (l.map (fun x => x / c)).sum = l.sum / c := by
  induction l with
  | nil => simp
  | cons a t ih => simp [ih, add_div]

/-- The subset models of `BetaBMA.fit` carry a residual sum of squares,
which is nonnegative. -/
theorem bmaModel_ssr_nonneg (bw bs : List (List ℝ)) (nc : ℕ) (combo : List ℕ) :
    0 ≤ (BetaBMA.bmaModel bw bs nc combo).2.2 := by
  simp only [BetaBMA.bmaModel]
  exact sumSq_nonneg _ _

theorem combos_length_62 (row : List ℝ) (h : row.length = 6) :
    (generate_beta_combinations row).length = 62 := by
  have key : generate_beta_combinations row
      = generate_beta_combinations ([0, 1, 2, 3, 4, 5] : List ℕ) := by
    simp [generate_beta_combinations, h]
  rw [key]
  decide

/-- Positivity of the code's unnormalized model weight, for positive
shrinkage factors and nonnegative residuals. -/
theorem code_wk_pos (aG g ssr ssr_r e1 e2 : ℝ) (haG : 0 < aG) (hg : 0 < g)
    (hssr : 0 ≤ ssr) (hssr_r : 0 ≤ ssr_r) :
    0 < Real.rpow aG e1 * Real.rpow (1 + 1 / g * ssr / ssr_r) e2 := by
  have hbase : (0:ℝ) < 1 + 1 / g * ssr / ssr_r := by
    have h1 : (0:ℝ) ≤ 1 / g * ssr / ssr_r := by positivity
    linarith
  exact mul_pos (Real.rpow_pos_of_pos haG _) (Real.rpow_pos_of_pos hbase _)

/-- The normalized model weights of `fitCore` are 62 numbers summing to 1,
whenever there is at least one training window and the estimator row has
its six columns. -/
theorem fitCore_wfinal (numTW : ℕ) (hTW : 1 ≤ numTW) (bw0 : List ℝ) (h6 : bw0.length = 6)
    (bwRest bs : List (List ℝ)) (dof_r : ℕ) :
    (BetaBMA.fitCore numTW bw0 bwRest bs dof_r).w_final.sum = 1 ∧
    (BetaBMA.fitCore numTW bw0 bwRest bs dof_r).w_final.length = 62 := by
  have hcl : (generate_beta_combinations bw0).length = 62 := combos_length_62 bw0 h6
  have hg : (0:ℝ) < 1 / ((min numTW (generate_beta_combinations bw0).length : ℕ) : ℝ) := by
    have hmin : 0 < min numTW (generate_beta_combinations bw0).length := by
      rw [hcl]
      omega
    have hc : (0:ℝ) < ((min numTW (generate_beta_combinations bw0).length : ℕ) : ℝ) := by
      exact_mod_cast hmin
    positivity
  refine ⟨?_, by simp only [BetaBMA.fitCore]; simp [hcl]⟩
  simp only [BetaBMA.fitCore]
  rw [list_sum_map_div]
  apply div_self
  apply ne_of_gt
  apply List.sum_pos
  · intro w hw
    simp only [List.mem_map] at hw
    obtain ⟨m, hm, rfl⟩ := hw
    obtain ⟨combo, _, rfl⟩ := hm
    have haG : 0 < (1 / ((min numTW (generate_beta_combinations bw0).length : ℕ) : ℝ)) /
        (1 + 1 / ((min numTW (generate_beta_combinations bw0).length : ℕ) : ℝ)) :=
      div_pos hg (by linarith)
    exact code_wk_pos _ _ _ _ _ _ haG hg (bmaModel_ssr_nonneg _ _ _ _) (sumSq_nonneg _ _)
  · intro hcontra
    have hlen := congrArg List.length hcontra
    simp [hcl] at hlen

theorem detL_two (a b c d : ℝ) : detL [[a, b], [c, d]] = a * d - b * c := by
  rw [detL]
  simp [detL, minorL, List.range_succ]
  ring

theorem transposeFixed_two (X : List (List ℝ)) :
    transposeFixed 2 X = [X.map (fun r => r.getD 0 0), X.map (fun r => r.getD 1 0)] := by
  simp [transposeFixed, List.range_succ]

theorem zw_collapse (f : ℝ → ℝ) (h : ℝ → ℝ → ℝ) :
    ∀ (xs wv : List ℝ),
      List.zipWith (· * ·) (xs.map f) (List.zipWith h wv xs)
        = List.zipWith (fun w x => f x * h w x) wv xs
  | [], _ => by simp
  | _ :: _, [] => by simp
  | x :: xs, w :: wv => by
    simp only [List.map_cons, List.zipWith_cons_cons]
    rw [zw_collapse f h xs wv]

theorem qSum_eq (x : ℝ) : ∀ (wv xs : List ℝ),
    qSum x wv xs = wxxSum wv xs - 2 * x * wxSum wv xs + x^2 * wSum wv xs
  | [], _ => by cases ‹List ℝ› <;> simp [qSum, wSum, wxSum, wxxSum]
  | _ :: _, [] => by simp [qSum, wSum, wxSum, wxxSum]
  | w :: wv, x' :: xs => by
    simp only [qSum, wSum, wxSum, wxxSum, List.zipWith_cons_cons, List.sum_cons] at *
    rw [show (List.zipWith (fun w' x'' => w' * (x - x'')^2) wv xs).sum = qSum x wv xs from rfl,
      qSum_eq x wv xs]
    simp only [wSum, wxSum, wxxSum]
    ring

theorem qSum_nonneg (x : ℝ) : ∀ (wv xs : List ℝ), (∀ w ∈ wv, 0 ≤ w) → 0 ≤ qSum x wv xs
  | [], _, _ => by simp [qSum]
  | _ :: _, [], _ => by simp [qSum]
  | w :: wv, x' :: xs, hw => by
    simp only [qSum, List.zipWith_cons_cons, List.sum_cons]
    have h1 : 0 ≤ w * (x - x')^2 :=
      mul_nonneg (hw w (List.mem_cons_self w wv)) (sq_nonneg _)
    have h2 : 0 ≤ qSum x wv xs :=
      qSum_nonneg x wv xs (fun u hu => hw u (List.mem_cons_of_mem _ hu))
    exact add_nonneg h1 h2

theorem detQuad_cons (w x : ℝ) (wv xs : List ℝ) :
    detQuad (w :: wv) (x :: xs) = detQuad wv xs + w * qSum x wv xs := by
  simp only [detQuad, wSum, wxSum, wxxSum, List.zipWith_cons_cons, List.sum_cons]
  rw [qSum_eq]
  simp only [wSum, wxSum, wxxSum]
  ring

theorem detQuad_nonneg : ∀ (wv xs : List ℝ), (∀ w ∈ wv, 0 ≤ w) → 0 ≤ detQuad wv xs
  | [], _, _ => by cases ‹List ℝ› <;> simp [detQuad, wSum, wxSum, wxxSum]
  | _ :: _, [], _ => by simp [detQuad, wSum, wxSum, wxxSum]
  | w :: wv, x :: xs, hw => by
    rw [detQuad_cons]
    have h1 : 0 ≤ detQuad wv xs :=
      detQuad_nonneg wv xs (fun u hu => hw u (List.mem_cons_of_mem _ hu))
    have h2 : 0 ≤ w * qSum x wv xs :=
      mul_nonneg (hw w (List.mem_cons_self w wv))
        (qSum_nonneg x wv xs (fun u hu => hw u (List.mem_cons_of_mem _ hu)))
    exact add_nonneg h1 h2

theorem detQuad_pos (w0 w1 x0 x1 : ℝ) (wv xs : List ℝ)
    (hw0 : 0 < w0) (hw1 : 0 < w1) (hw : ∀ w ∈ wv, 0 ≤ w) (hne : x0 ≠ x1) :
    0 < detQuad (w0 :: w1 :: wv) (x0 :: x1 :: xs) := by
  rw [detQuad_cons]
  have h1 : 0 ≤ detQuad (w1 :: wv) (x1 :: xs) := by
    refine detQuad_nonneg _ _ ?_
    intro u hu
    rcases List.mem_cons.1 hu with h | h
    · exact h ▸ le_of_lt hw1
    · exact hw u h
  have hq : qSum x0 (w1 :: wv) (x1 :: xs) = w1 * (x0 - x1)^2 + qSum x0 wv xs := by
    simp [qSum]
  have h2 : 0 < qSum x0 (w1 :: wv) (x1 :: xs) := by
    rw [hq]
    have hd : x0 - x1 ≠ 0 := sub_ne_zero.2 hne
    have hsq : 0 < (x0 - x1)^2 := by positivity
    have := qSum_nonneg x0 wv xs hw
    nlinarith
  nlinarith

theorem zw_collapse' (h : ℝ → ℝ → ℝ) :
    ∀ (xs wv : List ℝ),
      List.zipWith (· * ·) xs (List.zipWith h wv xs)
        = List.zipWith (fun w x => x * h w x) wv xs
  | [], _ => by simp
  | _ :: _, [] => by simp
  | x :: xs, w :: wv => by
    simp only [List.zipWith_cons_cons]
    rw [zw_collapse' h xs wv]

theorem zipWith_funcongr {α β γ : Type} (f g : α → β → γ) (h : ∀ a b, f a b = g a b)
    (l1 : List α) (l2 : List β) : List.zipWith f l1 l2 = List.zipWith g l1 l2 := by
  have hfg : f = g := funext fun a => funext fun b => h a b
  rw [hfg]

/-- Shape of the weighted normal matrix `XᵀWX` for the two-column design
matrix `[1 | x]`. -/
theorem normalMatrix_design (wv xs : List ℝ) :
    matMulL (transposeFixed 2 (xs.map fun x => [1, x]))
        (scaleRows wv (xs.map fun x => [1, x])) 2
      = [[wSum wv xs, wxSum wv xs], [wxSum wv xs, wxxSum wv xs]] := by
  have hsc : scaleRows wv (xs.map fun x => [1, x])
      = List.zipWith (fun w x => [w * 1, w * x]) wv xs := by
    simp [scaleRows, List.zipWith_map_right]
  have e0 : ((fun r : List ℝ => r.getD 0 0) ∘ fun x : ℝ => [1, x]) = fun _ : ℝ => (1:ℝ) := by
    funext x
    rfl
  have e1 : ((fun r : List ℝ => r.getD 1 0) ∘ fun x : ℝ => [1, x]) = fun x : ℝ => x := by
    funext x
    rfl
  have ht1 : transposeFixed 2 (xs.map fun x => [1, x])
      = [xs.map (fun _ => 1), xs] := by
    rw [transposeFixed_two, List.map_map, List.map_map, e0, e1, List.map_id']
  have ht2 : transposeFixed 2 (List.zipWith (fun w x => [w * 1, w * x]) wv xs)
      = [List.zipWith (fun w x => w * 1) wv xs, List.zipWith (fun w x => w * x) wv xs] := by
    rw [transposeFixed_two]
    simp only [List.map_zipWith]
    rfl
  rw [hsc, ht1, matMulL, ht2]
  simp only [List.map_cons, List.map_nil, dotL]
  rw [zw_collapse, zw_collapse, zw_collapse', zw_collapse']
  rw [zipWith_funcongr (fun w x => (fun _ : ℝ => (1:ℝ)) x * (w * 1)) (fun w _ => w)
        (by intro a b; simp),
      zipWith_funcongr (fun w x => (fun _ : ℝ => (1:ℝ)) x * (w * x)) (fun w x => w * x)
        (by intro a b; simp),
      zipWith_funcongr (fun w x => x * (w * 1)) (fun w x => w * x)
        (by intro a b; ring),
      zipWith_funcongr (fun w x => x * (w * x)) (fun w x => w * x * x)
        (by intro a b; ring)]
  rfl

theorem detQuad_pos' (wv xs : List ℝ) (hlw : 2 ≤ wv.length) (hpos : ∀ w ∈ wv, 0 < w)
    (x0 x1 : ℝ) (xt : List ℝ) (hxs : xs = x0 :: x1 :: xt) (hne : x0 ≠ x1) :
    0 < detQuad wv xs := by
  subst hxs
  cases wv with
  | nil => simp at hlw
  | cons w0 tl =>
    cases tl with
    | nil => simp at hlw
    | cons w1 wt =>
      refine detQuad_pos w0 w1 x0 x1 wt xt ?_ ?_ ?_ hne
      · exact hpos w0 (by simp)
      · exact hpos w1 (by simp)
      · exact fun u hu => le_of_lt (hpos u (by simp [hu]))

/-- `_weighted_ols` succeeds on the design matrix `[1 | x]` whenever the
supplied weights are positive (and at least two) and the regressor's first
two observations differ. -/
theorem weighted_ols_design_isSome (xs y wv : List ℝ) (hlw : 2 ≤ wv.length)
    (hpos : ∀ w ∈ wv, 0 < w) (x0 x1 : ℝ) (xt : List ℝ)
    (hxs : xs = x0 :: x1 :: xt) (hne : x0 ≠ x1) :
    (Beta.weighted_ols 2 (xs.map fun x => [1, x]) y (some wv) false).2.isSome := by
  have hdet : detL (matMulL (transposeFixed 2 (xs.map fun x => [1, x]))
      (scaleRows wv (xs.map fun x => [1, x])) 2) ≠ 0 := by
    rw [normalMatrix_design, detL_two]
    exact ne_of_gt (detQuad_pos' wv xs hlw hpos x0 x1 xt hxs hne)
  simp [Beta.weighted_ols, invL, hdet]

/-- The unweighted case (`w = None` becomes a vector of ones). -/
theorem weighted_ols_design_isSome_none (xs y : List ℝ) (x0 x1 : ℝ) (xt : List ℝ)
    (hxs : xs = x0 :: x1 :: xt) (hne : x0 ≠ x1) :
    (Beta.weighted_ols 2 (xs.map fun x => [1, x]) y none false).2.isSome := by
  have he : Beta.weighted_ols 2 (xs.map fun x => [1, x]) y none false
      = Beta.weighted_ols 2 (xs.map fun x => [1, x]) y
          (some (List.replicate (xs.map fun x => [1, x]).length 1)) false := rfl
  rw [he]
  refine weighted_ols_design_isSome xs y _ ?_ ?_ x0 x1 xt hxs hne
  · simp [hxs]
  · intro u hu
    rw [List.eq_of_mem_replicate hu]
    exact one_pos

/-! ## Success of the individual estimators on a non-degenerate window -/

theorem ols_isSome (exog endog : List ℝ) (adjusted : Bool) (x0 x1 : ℝ) (xt : List ℝ)
    (hxs : exog = x0 :: x1 :: xt) (hne : x0 ≠ x1) :
    ((Beta.ols (Beta.init exog endog) adjusted).2).isSome := by
  simp only [Beta.ols, Beta.init]
  rw [Option.isSome_map']
  exact weighted_ols_design_isSome_none exog endog x0 x1 xt hxs hne

theorem vasicek_isSome (exog endog : List ℝ) (bp sp : ℝ) (x0 x1 : ℝ) (xt : List ℝ)
    (hxs : exog = x0 :: x1 :: xt) (hne : x0 ≠ x1) :
    ((Beta.vasicek (Beta.init exog endog) bp sp).2).isSome := by
  simp only [Beta.vasicek, Beta.init]
  rw [Option.isSome_map']
  exact weighted_ols_design_isSome_none exog endog x0 x1 xt hxs hne

theorem welch_isSome (exog endog : List ℝ) (delta rho : ℝ) (x0 x1 : ℝ) (xt : List ℝ)
    (hxs : exog = x0 :: x1 :: xt) (hne : x0 ≠ x1) :
    ((Beta.welch (Beta.init exog endog) delta rho).2).isSome := by
  simp only [Beta.welch, Beta.init]
  rw [Option.isSome_map']
  refine weighted_ols_design_isSome exog _ _ ?_ ?_ x0 x1 xt hxs hne
  · simp [hxs]
  · intro u hu
    simp only [List.mem_reverse, List.mem_map] at hu
    obtain ⟨t, _, rfl⟩ := hu
    exact Real.exp_pos _

theorem robeco_isSome (b : BetaState) (ct vt gamma phi : ℝ) :
    ((Beta.robeco b ct vt gamma phi).2).isSome := rfl

/-- A `betaRow` (all six estimators) succeeds on a window whose first two
market observations differ. -/
theorem betaRow_isSome (win : List (ℝ × ℝ)) (p0 p1 : ℝ × ℝ) (pt : List (ℝ × ℝ))
    (hwin : win = p0 :: p1 :: pt) (hne : p0.1 ≠ p1.1) :
    (betaRow win).isSome := by
  have hxs : win.map Prod.fst = p0.1 :: p1.1 :: pt.map Prod.fst := by rw [hwin]; rfl
  have h1 := ols_isSome (win.map Prod.fst) (win.map Prod.snd) false _ _ _ hxs hne
  have h2 := ols_isSome (win.map Prod.fst) (win.map Prod.snd) true _ _ _ hxs hne
  have h3 := vasicek_isSome (win.map Prod.fst) (win.map Prod.snd) 1 2⁻¹ _ _ _ hxs hne
  have h4 := welch_isSome (win.map Prod.fst) (win.map Prod.snd) 3 0 _ _ _ hxs hne
  have h5 := welch_isSome (win.map Prod.fst) (win.map Prod.snd) 3 (2/256) _ _ _ hxs hne
  rw [Option.isSome_iff_exists] at h1 h2 h3 h4 h5
  obtain ⟨o, ho⟩ := h1
  obtain ⟨oa, hoa⟩ := h2
  obtain ⟨v, hv⟩ := h3
  obtain ⟨w1, hw1⟩ := h4
  obtain ⟨w2, hw2⟩ := h5
  simp [betaRow, ho, hoa, hv, hw1, hw2, Beta.robeco]

/-- `generate_betas` succeeds when every window's row does. -/
theorem generate_betas_isSome : ∀ (ws : List (List (ℝ × ℝ))),
    (∀ w ∈ ws, (betaRow w).isSome) → (generate_betas ws).isSome
  | [], _ => rfl
  | w :: ws, h => by
    have hh := h w (by simp)
    rw [Option.isSome_iff_exists] at hh
    obtain ⟨r, hr⟩ := hh
    have ht := generate_betas_isSome ws (fun u hu => h u (by simp [hu]))
    rw [Option.isSome_iff_exists] at ht
    obtain ⟨rest, hrest⟩ := ht
    simp [generate_betas, hr, hrest]

/-- A successful `betaRow` always has six entries. -/
theorem betaRow_length (win : List (ℝ × ℝ)) (r : List ℝ) (h : betaRow win = some r) :
    r.length = 6 := by
  simp only [betaRow, Option.bind_eq_bind, Option.pure_def, Option.bind_eq_some,
    Option.some.injEq] at h
  obtain ⟨o, _, oa, _, v, _, w1, _, w2, _, rb, _, hr⟩ := h
  rw [← hr]
  rfl

/-- A successful estimator matrix has one row per window. -/
theorem generate_betas_length : ∀ (ws : List (List (ℝ × ℝ))) (bw : List (List ℝ)),
    generate_betas ws = some bw → bw.length = ws.length
  | [], bw, h => by
    have hbw : ([] : List (List ℝ)) = bw := Option.some.inj h
    rw [← hbw]
    rfl
  | w :: ws, bw, h => by
    simp only [generate_betas, Option.bind_eq_bind, Option.pure_def, Option.bind_eq_some,
      Option.some.injEq] at h
    obtain ⟨r, _, rest, hrest, hbw⟩ := h
    rw [← hbw]
    simp [generate_betas_length ws rest hrest]

/-- Every row of a successful estimator matrix has six entries. -/
theorem generate_betas_row_length : ∀ (ws : List (List (ℝ × ℝ))) (bw : List (List ℝ)),
    generate_betas ws = some bw → ∀ r ∈ bw, r.length = 6
  | [], bw, h => by
    have hbw : ([] : List (List ℝ)) = bw := Option.some.inj h
    rw [← hbw]
    simp
  | w :: ws, bw, h => by
    simp only [generate_betas, Option.bind_eq_bind, Option.pure_def, Option.bind_eq_some,
      Option.some.injEq] at h
    obtain ⟨r, hr, rest, hrest, hbw⟩ := h
    rw [← hbw]
    intro u hu
    rcases List.mem_cons.1 hu with h' | h'
    · exact h' ▸ betaRow_length w r hr
    · exact generate_betas_row_length ws rest hrest u h'

/-! ## Claims -/

/-- Claim C7: the window generator on a series of length `n` with window
size `w ≤ n` produces exactly `n - w` windows; window `i` is the prefix of
the first `w + i` observations, has length `w + i`, and is a strict prefix
of window `i + 1` (it equals that window's `(w+i)`-prefix and is shorter). -/
theorem claim_C7 {α : Type} (w : ℕ) (data : List α) (h : w ≤ data.length) :
    (generate_estimation_windows w data).length = data.length - w ∧
    (∀ i, i < data.length - w →
      (generate_estimation_windows w data).getD i [] = data.take (w + i) ∧
      ((generate_estimation_windows w data).getD i []).length = w + i) ∧
    (∀ i, i + 1 < data.length - w →
      (generate_estimation_windows w data).getD i [] =
        ((generate_estimation_windows w data).getD (i + 1) []).take (w + i) ∧
      ((generate_estimation_windows w data).getD i []).length <
        ((generate_estimation_windows w data).getD (i + 1) []).length) := by
  have hget : ∀ i, i < data.length - w →
      (generate_estimation_windows w data).getD i [] = data.take (w + i) := by
    intro i hi
    simp [generate_estimation_windows, List.getD_eq_getElem?_getD, List.getElem?_map,
      List.getElem?_range, hi]
  refine ⟨by simp [generate_estimation_windows], ?_, ?_⟩
  · intro i hi
    refine ⟨hget i hi, ?_⟩
    rw [hget i hi, List.length_take]
    omega
  · intro i hi
    have h1 := hget i (by omega)
    have h2 : (generate_estimation_windows w data).getD (i + 1) [] =
        data.take (w + (i + 1)) := hget (i + 1) hi
    constructor
    · rw [h1, h2, List.take_take]
      congr 1
      omega
    · rw [h1, h2, List.length_take, List.length_take]
      omega

/-- Claim C4: over a length-6 estimator row, the BMA combiner enumerates 62
index subsets — `C(6,k)` of each size `k = 1..5`, no duplicates, every
subset of `{0..5}` of size 1 to 5 (each written as its sorted index list,
i.e. as a sublist of `[0,1,2,3,4,5]`) appearing — ordered by increasing
size and lexicographically within each size. -/
theorem claim_C4 (data : List ℝ) (h : data.length = 6) :
    (generate_beta_combinations data).length = 62 ∧
    (∀ k ∈ Finset.Icc 1 5,
      ((generate_beta_combinations data).filter (fun c => c.length = k)).length
        = Nat.choose 6 k) ∧
    (generate_beta_combinations data).Nodup ∧
    (∀ c ∈ generate_beta_combinations data,
       c.Sorted (· < ·) ∧ 1 ≤ c.length ∧ c.length ≤ 5 ∧ ∀ j ∈ c, j < 6) ∧
    (∀ c ∈ ([0, 1, 2, 3, 4, 5] : List ℕ).sublists, 1 ≤ c.length → c.length ≤ 5 →
       c ∈ generate_beta_combinations data) ∧
    (generate_beta_combinations data).Pairwise (fun a b =>
       a.length < b.length ∨ (a.length = b.length ∧ lexLt a b = true)) := by
  have key : generate_beta_combinations data
      = generate_beta_combinations ([0, 1, 2, 3, 4, 5] : List ℕ) := by
    simp [generate_beta_combinations, h]
  rw [key]
  decide

/-- Witness for claim C4 at a concrete input. -/
theorem claim_C4_witness :
    ([0, 0, 0, 0, 0, 0] : List ℝ).length = 6 ∧
    (generate_beta_combinations ([0, 0, 0, 0, 0, 0] : List ℝ)).length = 62 :=
  ⟨by simp, (claim_C4 [0, 0, 0, 0, 0, 0] (by simp)).1⟩

/-- Witness for claim C7 at a concrete input. -/
theorem claim_C7_witness :
    2 ≤ [0, 1, 2, 3, 4].length ∧
    (generate_estimation_windows 2 [0, 1, 2, 3, 4]).length = [0, 1, 2, 3, 4].length - 2 :=
  ⟨by decide, (claim_C7 2 [0, 1, 2, 3, 4] (by decide)).1⟩

/-- Claim C1 (failing-input evaluation): constructing `BetaBMA` with
`window = 22` stores `window = 21`, because `__init__` calls
`super().__init__(exog, endog)` without forwarding `window`; on a series of
length 23 the expanding windows built during `fit` therefore have lengths
`[21, 22]` — the shortest window has length 21, not the supplied 22. -/
theorem claim_C1_bug :
    (BetaBMA.init (List.replicate 23 (0:ℝ)) (List.replicate 23 (0:ℝ)) 22 none).window = 21 ∧
    hstack2 (List.replicate 23 (0:ℝ)) (List.replicate 23 (0:ℝ))
      = some ((List.replicate 23 (0:ℝ)).zip (List.replicate 23 (0:ℝ))) ∧
    ((generate_estimation_windows
        (BetaBMA.init (List.replicate 23 (0:ℝ)) (List.replicate 23 (0:ℝ)) 22 none).window
        ((List.replicate 23 (0:ℝ)).zip (List.replicate 23 (0:ℝ)))).map List.length)
      = [21, 22] := by
  refine ⟨rfl, by simp [hstack2], ?_⟩
  show ((generate_estimation_windows 21
      ((List.replicate 23 (0:ℝ)).zip (List.replicate 23 (0:ℝ)))).map List.length) = [21, 22]
  simp [generate_estimation_windows, List.map_map, Function.comp]
  decide

/-- Claim C3 counterexample: a zero `window_size` is not rejected at entry —
the constructor stores it and `fit`'s window generation then runs, producing
two (expanding, empty-prefixed) windows on a length-2 series, i.e.
computation proceeds instead of the configuration being rejected. -/
theorem claim_C3_counterexample :
    (BetaForecastCombination.init [(1:ℝ), 2] [(1:ℝ), 2] 0).window = 0 ∧
    (BetaForecastCombination.init [(1:ℝ), 2] [(1:ℝ), 2] 0).weights = none ∧
    (generate_estimation_windows
        (BetaForecastCombination.init [(1:ℝ), 2] [(1:ℝ), 2] 0).window
        ([(1:ℝ), 2].zip [(1:ℝ), 2])).length = 2 := by
  refine ⟨rfl, rfl, ?_⟩
  show (generate_estimation_windows 0 ([(1:ℝ), 2].zip [(1:ℝ), 2])).length = 2
  simp [generate_estimation_windows]

/-- Claim C3 amended: the constructor performs no validation whatsoever —
any window size (zero or otherwise) and any pair of series are stored as
given; a length mismatch surfaces only inside `fit`, as the shape error of
the very first `np.hstack`, and `dof_r` is never checked at all. -/
theorem claim_C3_amended (exog endog : List ℝ) (window : ℕ) (sh : Option ℝ) (dof_r : ℕ) :
    (BetaForecastCombination.init exog endog window).window = window ∧
    (BetaForecastCombination.init exog endog window).n_obs = endog.length ∧
    (BetaForecastCombination.init exog endog window).exog = exog ∧
    (BetaForecastCombination.init exog endog window).endog = endog ∧
    (BetaForecastCombination.init exog endog window).weights = none ∧
    (exog.length ≠ endog.length →
      BetaBMA.fit (BetaBMA.init exog endog window sh) dof_r = none) := by
  refine ⟨rfl, rfl, rfl, rfl, rfl, fun h => ?_⟩
  simp [BetaBMA.fit, BetaBMA.fitParts, hstack2, BetaBMA.init,
    BetaForecastCombination.init, h]

/-- Witness for the amended claim C3 at a concrete input. -/
theorem claim_C3_amended_witness :
    ([(1:ℝ)].length ≠ [(1:ℝ), 2].length) ∧
    BetaBMA.fit (BetaBMA.init [(1:ℝ)] [(1:ℝ), 2] 21 none) 1 = none :=
  ⟨by simp, (claim_C3_amended [(1:ℝ)] [(1:ℝ), 2] 21 none 1).2.2.2.2.2 (by simp)⟩

/-- Winsorization is the identity when every observation already lies inside
the (order-normalized) Welch bounds. -/
theorem wins_id (delta : ℝ) : ∀ (exog endog : List ℝ),
    (∀ p ∈ exog.zip endog,
      min ((1 - delta) * p.1) ((1 + delta) * p.1) ≤ p.2 ∧
        p.2 ≤ max ((1 - delta) * p.1) ((1 + delta) * p.1)) →
    endog.length ≤ exog.length →
    List.zipWith (fun y (lu : ℝ × ℝ) => max lu.1 (min y lu.2)) endog
        ((List.zipWith min (exog.map (fun x => (1 - delta) * x))
            (exog.map (fun x => (1 + delta) * x))).zip
          (List.zipWith max (exog.map (fun x => (1 - delta) * x))
            (exog.map (fun x => (1 + delta) * x)))) = endog
  | [], endog, _, hlen => by
    have : endog = [] := List.eq_nil_of_length_eq_zero (Nat.le_zero.1 (by simpa using hlen))
    subst this
    rfl
  | x :: xs, [], _, _ => rfl
  | x :: xs, y :: ys, hcl, hlen => by
    simp only [List.map_cons, List.zipWith_cons_cons, List.zip_cons_cons]
    have hhead := hcl (x, y) (by simp)
    have h1 : min ((1 - delta) * x) ((1 + delta) * x) ≤ y := hhead.1
    have h2 : y ≤ max ((1 - delta) * x) ((1 + delta) * x) := hhead.2
    rw [min_eq_left h2, max_eq_right h1]
    rw [wins_id delta xs ys (fun p hp => hcl p (by simp [hp])) (by simpa using hlen)]

/-- With `rho = 0` the Welch recency weights are all one. -/
theorem welch_weights_zero (n : ℕ) :
    ((List.range n).map (fun t : ℕ => Real.exp (-(0:ℝ) * (t : ℝ)))).reverse
      = List.replicate n 1 := by
  have he : (fun t : ℕ => Real.exp (-(0:ℝ) * (t : ℝ))) = fun _ : ℕ => (1:ℝ) := by
    funext t
    simp
  rw [he, List.map_const', List.length_range, List.reverse_replicate]

/-- A coefficient vector returned by `_weighted_ols` has one entry per
design-matrix column. -/
theorem weighted_ols_coeff_length (nc : ℕ) (X : List (List ℝ)) (y : List ℝ)
    (w : Option (List ℝ)) (demean : Bool) (c : List ℝ)
    (h : (Beta.weighted_ols nc X y w demean).2 = some c) : c.length = nc := by
  simp only [Beta.weighted_ols, invL] at h
  split at h
  all_goals split at h
  all_goals rw [Option.map_eq_some'] at h
  all_goals obtain ⟨Ai, hAi, hc⟩ := h
  all_goals
    first
      | exact Option.noConfusion hAi
      | (rw [← hc]
         have hlenAi : Ai.length = nc := by
           rw [← Option.some.inj hAi]
           simp [matMulL, transposeFixed]
         simp [matVecL, hlenAi])

set_option maxHeartbeats 1000000 in
/-- Claim C8 counterexample: at `exog = [1, 2]`, `endog = [-5/2, 1]` every
observation satisfies `|endog| ≤ 3·|exog|`, yet `welch(3, 0)` winsorizes the
first observation (the lower bound is `(1-3)·1 = -2 > -5/2`) and returns 3,
while the unweighted OLS slope is `7/2`. -/
theorem claim_C8_counterexample :
    (∀ p ∈ ([1, 2] : List ℝ).zip ([-(5/2), 1] : List ℝ), |p.2| ≤ 3 * |p.1|) ∧
    (Beta.welch (Beta.init [1, 2] [-(5/2), 1]) 3 0).2 = some 3 ∧
    (Beta.ols (Beta.init [1, 2] [-(5/2), 1]) false).2 = some (7/2) ∧
    (3 : ℝ) ≠ 7/2 := by
  refine ⟨?_, ?_, ?_, by norm_num⟩
  · intro p hp
    simp only [List.zip_cons_cons, List.mem_cons] at hp
    rcases hp with h | h | h
    · subst h
      show |(-(5/2):ℝ)| ≤ 3 * |(1:ℝ)|
      rw [abs_neg, abs_of_nonneg (by norm_num : (0:ℝ) ≤ 5/2), abs_one]
      norm_num
    · subst h
      show |(1:ℝ)| ≤ 3 * |(2:ℝ)|
      rw [abs_one, abs_of_nonneg (by norm_num : (0:ℝ) ≤ 2)]
      norm_num
    · simp at h
  · norm_num [Beta.welch, Beta.init, Beta.weighted_ols, invL, detL, minorL, matMulL, matVecL,
      transposeFixed, scaleRows, dotL, List.range_succ, List.replicate_succ, List.getLastD,
      List.getD, Real.exp_zero]
  · norm_num [Beta.ols, Beta.init, Beta.weighted_ols, invL, detL, minorL, matMulL, matVecL,
      transposeFixed, scaleRows, dotL, List.range_succ, List.replicate_succ, List.getLastD,
      List.getD]

/-- Claim C8 amended: with `delta = 3` and `rho = 0`, if every observation
lies within the Welch winsorization band
`[min(-2x, 4x), max(-2x, 4x)]` (which is what the code enforces — not the
band `|endog| ≤ 3·|exog|` of the original claim), then `welch()` equals the
unweighted OLS slope `ols()`. -/
theorem claim_C8_amended (exog endog : List ℝ) (hlen : endog.length = exog.length)
    (hcl : ∀ p ∈ exog.zip endog,
      min ((1 - 3) * p.1) ((1 + 3) * p.1) ≤ p.2 ∧
        p.2 ≤ max ((1 - 3) * p.1) ((1 + 3) * p.1)) :
    (Beta.welch (Beta.init exog endog) 3 0).2 = (Beta.ols (Beta.init exog endog) false).2 := by
  simp only [Beta.welch, Beta.ols, Beta.init]
  rw [wins_id 3 exog endog hcl (le_of_eq hlen)]
  rw [welch_weights_zero]
  have hwnone : Beta.weighted_ols 2 (exog.map fun x => [1, x]) endog none false
      = Beta.weighted_ols 2 (exog.map fun x => [1, x]) endog
          (some (List.replicate (exog.map fun x : ℝ => [1, x]).length 1)) false := rfl
  rw [hwnone, show (List.length (exog.map (fun x : ℝ => [1, x]))) = exog.length by simp]
  cases hr : (Beta.weighted_ols 2 (exog.map fun x => [1, x]) endog
      (some (List.replicate exog.length 1)) false).2 with
  | none => simp [hr]
  | some c =>
    have hc : c.length = 2 := weighted_ols_coeff_length _ _ _ _ _ _ hr
    obtain ⟨a, b, rfl⟩ : ∃ a b, c = [a, b] := by
      match c, hc with
      | [a, b], _ => exact ⟨a, b, rfl⟩
    simp [hr]

/-- Witness for the amended claim C8 at a concrete input. -/
theorem claim_C8_amended_witness :
    (([1, 2] : List ℝ).length = ([1, 2] : List ℝ).length ∧
      ∀ p ∈ ([1, 2] : List ℝ).zip ([1, 2] : List ℝ),
        min ((1 - 3) * p.1) ((1 + 3) * p.1) ≤ p.2 ∧
          p.2 ≤ max ((1 - 3) * p.1) ((1 + 3) * p.1)) ∧
    (Beta.welch (Beta.init [1, 2] [1, 2]) 3 0).2
      = (Beta.ols (Beta.init [1, 2] [1, 2]) false).2 := by
  have hcl : ∀ p ∈ ([1, 2] : List ℝ).zip ([1, 2] : List ℝ),
      min ((1 - 3) * p.1) ((1 + 3) * p.1) ≤ p.2 ∧
        p.2 ≤ max ((1 - 3) * p.1) ((1 + 3) * p.1) := by
    intro p hp
    simp only [List.zip_cons_cons, List.mem_cons] at hp
    rcases hp with h | h | h
    · rw [h]
      constructor <;> [exact min_le_of_left_le (by norm_num); exact le_max_of_le_right (by norm_num)]
    · rw [h]
      constructor <;> [exact min_le_of_left_le (by norm_num); exact le_max_of_le_right (by norm_num)]
    · simp at h
  exact ⟨⟨rfl, hcl⟩, claim_C8_amended [1, 2] [1, 2] rfl hcl⟩

set_option maxHeartbeats 1000000 in
/-- Claim C2 counterexample: on `exog = [1,2,3,4,5,5]`, `endog = [1,2,3,4,5,6]`
with `window = 2`, the training phase succeeds and `fit` assigns
`self.weights` (line 193), but the test-window estimation (line 196) then
raises — the test window's market series `[5, 5]` is constant, so the OLS
normal matrix is singular.  The call fails, yet the retained weights have
changed from their pre-call value `None`. -/
theorem claim_C2_counterexample :
    (BetaForecastCombination.fit
        (BetaForecastCombination.init [1, 2, 3, 4, 5, 5] [1, 2, 3, 4, 5, 6] 2)).2 = none ∧
    (BetaForecastCombination.fit
        (BetaForecastCombination.init [1, 2, 3, 4, 5, 5] [1, 2, 3, 4, 5, 6] 2)).1.weights
      ≠ (BetaForecastCombination.init [1, 2, 3, 4, 5, 5] [1, 2, 3, 4, 5, 6] 2).weights := by
  have hpre : BetaForecastCombination.pre
      (BetaForecastCombination.init [1, 2, 3, 4, 5, 5] [1, 2, 3, 4, 5, 6] 2)
      = some ([((1:ℝ),(1:ℝ)), (2,2), (3,3), (4,4)], [((5:ℝ),(5:ℝ)), (5,6)]) := by
    simp [BetaForecastCombination.pre, BetaForecastCombination.init, hstack2]
  have htws : generate_estimation_windows 2 [((1:ℝ),(1:ℝ)), (2,2), (3,3), (4,4)]
      = [[((1:ℝ),(1:ℝ)), (2,2)], [((1:ℝ),(1:ℝ)), (2,2), (3,3)]] := by
    simp [generate_estimation_windows, List.range_succ]
  have hbs : (generate_betas
      [[((1:ℝ),(1:ℝ)), (2,2)], [((1:ℝ),(1:ℝ)), (2,2), (3,3)]]).isSome := by
    refine generate_betas_isSome _ ?_
    intro w hw
    rcases List.mem_cons.1 hw with h | h
    · exact h ▸ betaRow_isSome _ (1,1) (2,2) [] rfl (by norm_num)
    · rcases List.mem_cons.1 h with h' | h'
      · exact h' ▸ betaRow_isSome _ (1,1) (2,2) [(3,3)] rfl (by norm_num)
      · simp at h'
  obtain ⟨B, hB⟩ := Option.isSome_iff_exists.1 hbs
  have hstage : BetaForecastCombination.trainStage
      (BetaForecastCombination.init [1, 2, 3, 4, 5, 5] [1, 2, 3, 4, 5, 6] 2)
      [((1:ℝ),(1:ℝ)), (2,2), (3,3), (4,4)] = some B := by
    simp only [BetaForecastCombination.trainStage, BetaForecastCombination.init, htws, hB,
      Option.bind_eq_bind, Option.some_bind]
    norm_num
  have hrow : betaRow [((5:ℝ),(5:ℝ)), (5,6)] = none := by
    norm_num [betaRow, Beta.ols, Beta.init, Beta.weighted_ols, invL, detL, minorL, matMulL,
      matVecL, transposeFixed, scaleRows, dotL, List.range_succ, List.replicate_succ]
  have htest : generate_betas [[((5:ℝ),(5:ℝ)), (5,6)]] = none := by
    simp [generate_betas, hrow]
  simp only [BetaForecastCombination.fit, hpre, hstage, htest]
  simp [BetaForecastCombination.init]

/-- Claim C2 amended: a failure *before* the weight assignment of line 193
(the two `np.hstack`s, the training estimator matrix, the `np.ones`
allocation) leaves the instance exactly as it was; but the assignment
happens before the test-window estimation of line 196, so once the training
stage succeeds the new weights are committed even if the test-phase
estimation then raises. -/
theorem claim_C2_amended (s : FCState) :
    (BetaForecastCombination.pre s = none → BetaForecastCombination.fit s = (s, none)) ∧
    (∀ train test, BetaForecastCombination.pre s = some (train, test) →
      BetaForecastCombination.trainStage s train = none →
      BetaForecastCombination.fit s = (s, none)) ∧
    (∀ train test betas, BetaForecastCombination.pre s = some (train, test) →
      BetaForecastCombination.trainStage s train = some betas →
      (BetaForecastCombination.fit s).1
        = { s with weights := some (BetaForecastCombination.weightVec betas) }) := by
  refine ⟨?_, ?_, ?_⟩
  · intro hpre
    rw [BetaForecastCombination.fit, hpre]
  · intro train test hpre hstage
    rw [BetaForecastCombination.fit, hpre]
    simp only [hstage]
  · intro train test betas hpre hstage
    rw [BetaForecastCombination.fit, hpre]
    simp only [hstage]
    cases generate_betas [test] <;> rfl

/-- Witness for the amended claim C2: at a concrete input whose training
windows have constant market returns, `fit` fails before the assignment and
the state is unchanged; at the counterexample input the training stage
succeeds and the new weights are committed. -/
theorem claim_C2_amended_witness :
    (BetaForecastCombination.pre
        (BetaForecastCombination.init [1, 1, 1, 1, 5, 6] [2, 3, 4, 5, 6, 7] 2)
        = some ([((1:ℝ),(2:ℝ)), (1,3), (1,4), (1,5)], [((5:ℝ),(6:ℝ)), (6,7)]) ∧
      BetaForecastCombination.trainStage
        (BetaForecastCombination.init [1, 1, 1, 1, 5, 6] [2, 3, 4, 5, 6, 7] 2)
        [((1:ℝ),(2:ℝ)), (1,3), (1,4), (1,5)] = none) ∧
    BetaForecastCombination.fit
        (BetaForecastCombination.init [1, 1, 1, 1, 5, 6] [2, 3, 4, 5, 6, 7] 2)
      = (BetaForecastCombination.init [1, 1, 1, 1, 5, 6] [2, 3, 4, 5, 6, 7] 2, none) := by
  have hpre : BetaForecastCombination.pre
      (BetaForecastCombination.init [1, 1, 1, 1, 5, 6] [2, 3, 4, 5, 6, 7] 2)
      = some ([((1:ℝ),(2:ℝ)), (1,3), (1,4), (1,5)], [((5:ℝ),(6:ℝ)), (6,7)]) := by
    simp [BetaForecastCombination.pre, BetaForecastCombination.init, hstack2]
  have hrow : betaRow [((1:ℝ),(2:ℝ)), (1,3)] = none := by
    norm_num [betaRow, Beta.ols, Beta.init, Beta.weighted_ols, invL, detL, minorL, matMulL,
      matVecL, transposeFixed, scaleRows, dotL, List.range_succ, List.replicate_succ]
  have hstage : BetaForecastCombination.trainStage
      (BetaForecastCombination.init [1, 1, 1, 1, 5, 6] [2, 3, 4, 5, 6, 7] 2)
      [((1:ℝ),(2:ℝ)), (1,3), (1,4), (1,5)] = none := by
    have htws : generate_estimation_windows 2 [((1:ℝ),(2:ℝ)), (1,3), (1,4), (1,5)]
        = [[((1:ℝ),(2:ℝ)), (1,3)], [((1:ℝ),(2:ℝ)), (1,3), (1,4)]] := by
      simp [generate_estimation_windows, List.range_succ]
    simp [BetaForecastCombination.trainStage, BetaForecastCombination.init, htws,
      generate_betas, hrow]
  exact ⟨⟨hpre, hstage⟩,
    (claim_C2_amended (BetaForecastCombination.init [1, 1, 1, 1, 5, 6] [2, 3, 4, 5, 6, 7] 2)).2.1
      _ _ hpre hstage⟩

/-- Claim C10: the stored `shrinkage` constructor argument is never read by
`fit`; two `BetaBMA` instances that differ only in `shrinkage` produce the
same forecast for every `dof_r`. -/
theorem claim_C10 (exog endog : List ℝ) (window : ℕ) (s1 s2 : Option ℝ) (dof_r : ℕ) :
    BetaBMA.fit (BetaBMA.init exog endog window s1) dof_r =
      BetaBMA.fit (BetaBMA.init exog endog window s2) dof_r := rfl

/-- Claim C9: none of the public estimator methods mutates the instance:
the state component returned by each method equals the input state, so
`exog`, `endog` and the design matrix `exog_mat` are unchanged (the only
mutation channel, `demean`, is `False` at every call site). -/
theorem claim_C9 (b : BetaState) (adjusted : Bool) (bp sp delta rho ct vt gamma phi : ℝ) :
    (Beta.ols b adjusted).1 = b ∧ (Beta.vasicek b bp sp).1 = b ∧
    (Beta.welch b delta rho).1 = b ∧ (Beta.robeco b ct vt gamma phi).1 = b ∧
    (Beta.scholes_williams b).1 = b :=
  ⟨rfl, rfl, rfl, rfl, rfl⟩

/-- Claim C5: in `BetaBMA.fit`, the unnormalized weight computed for a
subset model of size `p` with residual `SSR_u` equals the spec's
`a_g^(0.5·p) · (1 + SSR_u/(g·SSR_r))^(-0.5·dof_r)` — the code's factor
`1 + (1/g)·SSR_u/SSR_r` is the same real as the spec's `1 + SSR_u/(g·SSR_r)`
— with `g = 1/min(num_training_windows, num_subsets)` and
`a_g = g/(1+g)` exactly as the fit computes them. -/
theorem claim_C5 (s : BMAState) (dof_r : ℕ) (parts : BetaBMA.BMAParts)
    (h : BetaBMA.fitParts s dof_r = some parts) :
    parts.w_k = parts.models.map
      (fun m => specModelWeight parts.aG parts.g dof_r m.1 m.2.2 parts.ssr_r) ∧
    parts.g = 1 / ((min parts.numTW parts.combos.length : ℕ) : ℝ) ∧
    parts.aG = parts.g / (1 + parts.g) := by
  obtain ⟨data, bw0, bwRest, bsRow, _, _, _, rfl⟩ := fitParts_inv s dof_r parts h
  refine ⟨?_, rfl, rfl⟩
  simp only [BetaBMA.fitCore]
  congr 1
  funext m
  simp only [specModelWeight]
  congr 2
  simp only [div_eq_mul_inv, mul_inv]
  ring

/-- Claim C6: whenever `BetaBMA.fit` completes, the 62 normalized posterior
model weights it computed sum to exactly 1 (real-number semantics). -/
theorem claim_C6 (s : BMAState) (dof_r : ℕ) (parts : BetaBMA.BMAParts)
    (h : BetaBMA.fitParts s dof_r = some parts) :
    parts.w_final.sum = 1 ∧ parts.w_final.length = 62 ∧
    BetaBMA.fit s dof_r = some parts.beta_bma := by
  obtain ⟨data, bw0, bwRest, bsRow, hdata, hbw, hbs, hparts⟩ := fitParts_inv s dof_r parts h
  subst hparts
  have h6 : bw0.length = 6 := generate_betas_row_length _ _ hbw bw0 (by simp)
  have hTW : 1 ≤ (generate_estimation_windows s.window data).length := by
    rw [← generate_betas_length _ _ hbw]
    simp
  obtain ⟨h1, h2⟩ := fitCore_wfinal _ hTW bw0 h6 bwRest (add_intercept bsRow) dof_r
  refine ⟨h1, h2, ?_⟩
  rw [BetaBMA.fit, h]
  rfl

/-- `BetaBMA.fit` completes on a concrete 22-observation series (the stored
window is always 21, so there is exactly one training window; the first two
market returns differ, so every estimator succeeds). -/
theorem bma22_parts :
    ∃ parts, BetaBMA.fitParts
      (BetaBMA.init ((0:ℝ) :: (1:ℝ) :: List.replicate 20 1)
        ((2:ℝ) :: (2:ℝ) :: List.replicate 20 2) 21 none) 1 = some parts := by
  have hzip : ((0:ℝ) :: (1:ℝ) :: List.replicate 20 1).zip
      ((2:ℝ) :: (2:ℝ) :: List.replicate 20 2)
      = ((0:ℝ),(2:ℝ)) :: ((1:ℝ),(2:ℝ)) ::
        (List.replicate 20 (1:ℝ)).zip (List.replicate 20 (2:ℝ)) := by
    simp
  have hdata : hstack2 ((0:ℝ) :: (1:ℝ) :: List.replicate 20 1)
      ((2:ℝ) :: (2:ℝ) :: List.replicate 20 2)
      = some (((0:ℝ) :: (1:ℝ) :: List.replicate 20 1).zip
          ((2:ℝ) :: (2:ℝ) :: List.replicate 20 2)) := by
    simp [hstack2]
  have hdlen : (((0:ℝ) :: (1:ℝ) :: List.replicate 20 1).zip
      ((2:ℝ) :: (2:ℝ) :: List.replicate 20 2)).length = 22 := by
    simp
  have htws : generate_estimation_windows 21
      (((0:ℝ) :: (1:ℝ) :: List.replicate 20 1).zip
        ((2:ℝ) :: (2:ℝ) :: List.replicate 20 2))
      = [(((0:ℝ) :: (1:ℝ) :: List.replicate 20 1).zip
          ((2:ℝ) :: (2:ℝ) :: List.replicate 20 2)).take 21] := by
    simp only [generate_estimation_windows, hdlen, show (22 - 21 : ℕ) = 1 from rfl,
      show List.range 1 = [0] from rfl, List.map_cons, List.map_nil, Nat.add_zero]
  have hwin : (((0:ℝ) :: (1:ℝ) :: List.replicate 20 1).zip
      ((2:ℝ) :: (2:ℝ) :: List.replicate 20 2)).take 21
      = ((0:ℝ),(2:ℝ)) :: ((1:ℝ),(2:ℝ)) ::
        ((List.replicate 20 (1:ℝ)).zip (List.replicate 20 (2:ℝ))).take 19 := by
    rw [hzip]
    rfl
  obtain ⟨r1, hr1⟩ := Option.isSome_iff_exists.1
    (betaRow_isSome _ (0,2) (1,2) _ hwin (by norm_num))
  obtain ⟨r2, hr2⟩ := Option.isSome_iff_exists.1
    (betaRow_isSome _ (0,2) (1,2) _ hzip (by norm_num))
  have hbw : generate_betas [(((0:ℝ) :: (1:ℝ) :: List.replicate 20 1).zip
      ((2:ℝ) :: (2:ℝ) :: List.replicate 20 2)).take 21] = some [r1] := by
    simp only [generate_betas, Option.bind_eq_bind, Option.pure_def, hr1, Option.some_bind]
  have hbs : generate_betas [((0:ℝ) :: (1:ℝ) :: List.replicate 20 1).zip
      ((2:ℝ) :: (2:ℝ) :: List.replicate 20 2)] = some [r2] := by
    simp only [generate_betas, Option.bind_eq_bind, Option.pure_def, hr2, Option.some_bind]
  refine ⟨BetaBMA.fitCore 1 r1 [] (add_intercept [r2]) 1, ?_⟩
  simp only [BetaBMA.fitParts, BetaBMA.init, BetaForecastCombination.init,
    Option.bind_eq_bind]
  rw [hdata]
  simp only [Option.some_bind]
  rw [htws, hbw, hbs]
  simp only [Option.some_bind]
  rfl

/-- Witness for claim C5 at the concrete completing input. -/
theorem claim_C5_witness :
    ∃ parts, BetaBMA.fitParts
        (BetaBMA.init ((0:ℝ) :: (1:ℝ) :: List.replicate 20 1)
          ((2:ℝ) :: (2:ℝ) :: List.replicate 20 2) 21 none) 1 = some parts ∧
      parts.w_k = parts.models.map
        (fun m => specModelWeight parts.aG parts.g 1 m.1 m.2.2 parts.ssr_r) := by
  obtain ⟨parts, hp⟩ := bma22_parts
  exact ⟨parts, hp, (claim_C5 _ _ _ hp).1⟩

/-- Witness for claim C6 at the concrete completing input. -/
theorem claim_C6_witness :
    ∃ parts, BetaBMA.fitParts
        (BetaBMA.init ((0:ℝ) :: (1:ℝ) :: List.replicate 20 1)
          ((2:ℝ) :: (2:ℝ) :: List.replicate 20 2) 21 none) 1 = some parts ∧
      parts.w_final.sum = 1 ∧ parts.w_final.length = 62 := by
  obtain ⟨parts, hp⟩ := bma22_parts
  exact ⟨parts, hp, (claim_C6 _ _ _ hp).1, (claim_C6 _ _ _ hp).2.1⟩
